import Mathlib

set_option maxRecDepth 8000

/-!
Shallow embedding of the disk-image partition scanning pipeline of
`Simple_BuddyFS.py` (MBR variant) and `Simple_ForGPT.py` (GPT variant):
partition-table decoding, sequential block reading, empty/data block
classification and SHA-256 hex digests.

A disk image is a `List Nat` of byte values.  A Python `f.read(n)` at an
absolute file position becomes a pure slice of the image list; the file
position advances by the number of bytes actually returned, exactly as in
CPython.  Python exceptions raised by the parsers (`IndexError`,
`struct.error`, the `ValueError` for a bad GPT signature) become
`Except PyError`.  Python `int` arithmetic is exact, so the GPT
`total_sectors = end_lba - start_lba + 1` is an `Int`, and
`range(num_sectors)` for a negative count is the empty range, modelled by
`Int.toNat`.
-/

/-- Exceptions the parsing code can raise: `IndexError` from `entry[0]` on an
empty slice, `struct.error` from `struct.unpack` on a slice of the wrong
length, and the `ValueError` raised for a bad GPT signature. -/
inductive PyError where
  | indexError
  | structError
  | invalidGptSignature
  deriving DecidableEq, Repr

deriving instance DecidableEq for Except

/-- `f.read(n)` with the file positioned at absolute byte offset `pos`:
returns up to `n` bytes, fewer (possibly zero) at end of image. -/
def pyRead (img : List Nat) (pos n : Nat) : List Nat :=
  (img.drop pos).take n

/-- Python slice `l[a:b]` for `a ≤ b`: bytes at indices `a, …, b-1`,
truncated at the end of the list. -/
def pySlice (l : List Nat) (a b : Nat) : List Nat :=
  (l.take b).drop a

/-- Little-endian value of a byte list (least significant byte first). -/
def leVal (l : List Nat) : Nat :=
  l.foldr (fun b acc => b + 256 * acc) 0

/-- `struct.unpack("<I", l)[0]`: requires exactly 4 bytes, little-endian. -/
def leU32 : List Nat → Option Nat
  | [b0, b1, b2, b3] => some (b0 + 256 * (b1 + 256 * (b2 + 256 * b3)))
  | _ => none

/-- `struct.unpack("<Q", l)[0]`: requires exactly 8 bytes, little-endian. -/
def leU64 : List Nat → Option Nat
  | [b0, b1, b2, b3, b4, b5, b6, b7] =>
    some (b0 + 256 * (b1 + 256 * (b2 + 256 * (b3 + 256 *
      (b4 + 256 * (b5 + 256 * (b6 + 256 * b7)))))))
  | _ => none

/-- `bytes.strip(b"\x00")`: drop zero bytes from both ends. -/
def pyStrip (l : List Nat) : List Nat :=
  (((l.dropWhile (· = 0)).reverse.dropWhile (· = 0))).reverse

/-! ### SHA-256 (semantics of the `hashlib.sha256(...).hexdigest()` call)

`compute_sha256` in both source files feeds the whole block to
`hashlib.sha256` and returns `hexdigest()`.  The library call is embedded
here as FIPS 180-4 SHA-256 over `Nat` words reduced mod `2^32`, followed by
lowercase hex encoding of the 32 digest bytes. -/

/-- Reduce to a 32-bit word. -/
def w32 (x : Nat) : Nat := x % 4294967296

/-- Right rotation of a 32-bit word (input assumed `< 2^32`). -/
def rotr32 (n x : Nat) : Nat := x / 2 ^ n + x % 2 ^ n * 2 ^ (32 - n)

/-- SHA-256 Ch(x,y,z) = (x ∧ y) ⊕ (¬x ∧ z) on 32-bit words. -/
def chFun (x y z : Nat) : Nat :=
  (x &&& y) ^^^ ((4294967295 - w32 x) &&& z)

/-- SHA-256 Maj(x,y,z) = (x ∧ y) ⊕ (x ∧ z) ⊕ (y ∧ z). -/
def majFun (x y z : Nat) : Nat :=
  (x &&& y) ^^^ (x &&& z) ^^^ (y &&& z)

/-- SHA-256 Σ₀. -/
def bSig0 (x : Nat) : Nat := rotr32 2 x ^^^ rotr32 13 x ^^^ rotr32 22 x

/-- SHA-256 Σ₁. -/
def bSig1 (x : Nat) : Nat := rotr32 6 x ^^^ rotr32 11 x ^^^ rotr32 25 x

/-- SHA-256 σ₀. -/
def sSig0 (x : Nat) : Nat := rotr32 7 x ^^^ rotr32 18 x ^^^ x / 2 ^ 3

/-- SHA-256 σ₁. -/
def sSig1 (x : Nat) : Nat := rotr32 17 x ^^^ rotr32 19 x ^^^ x / 2 ^ 10

/-- The eight 32-bit words of the SHA-256 internal state. -/
structure H8 where
  a : Nat
  b : Nat
  c : Nat
  d : Nat
  e : Nat
  f : Nat
  g : Nat
  h : Nat
  deriving DecidableEq, Repr

/-- SHA-256 initial hash value. -/
def initH : H8 :=
  ⟨1779033703, 3144134277, 1013904242, 2773480762,
   1359893119, 2600822924, 528734635, 1541459225⟩

/-- The 64 SHA-256 round constants. -/
def K256 : List Nat :=
  [1116352408, 1899447441, 3049323471, 3921009573,
   961987163, 1508970993, 2453635748, 2870763221,
   3624381080, 310598401, 607225278, 1426881987,
   1925078388, 2162078206, 2614888103, 3248222580,
   3835390401, 4022224774, 264347078, 604807628,
   770255983, 1249150122, 1555081692, 1996064986,
   2554220882, 2821834349, 2952996808, 3210313671,
   3336571891, 3584528711, 113926993, 338241895,
   666307205, 773529912, 1294757372, 1396182291,
   1695183700, 1986661051, 2177026350, 2456956037,
   2730485921, 2820302411, 3259730800, 3345764771,
   3516065817, 3600352804, 4094571909, 275423344,
   430227734, 506948616, 659060556, 883997877,
   958139571, 1322822218, 1537002063, 1747873779,
   1955562222, 2024104815, 2227730452, 2361852424,
   2428436474, 2756734187, 3204031479, 3329325298]

/-- Big-endian value of a byte list (most significant byte first). -/
def beVal (l : List Nat) : Nat :=
  l.foldl (fun acc b => acc * 256 + b) 0

/-- The first 16 words of the message schedule of a 64-byte chunk. -/
def initialW (chunk : List Nat) : List Nat :=
  (List.range 16).map fun i => beVal (pySlice chunk (4 * i) (4 * i + 4))

/-- The next message-schedule word from the current schedule. -/
def nextW (w : List Nat) : Nat :=
  w32 (sSig1 (w.getD (w.length - 2) 0) + w.getD (w.length - 7) 0 +
       sSig0 (w.getD (w.length - 15) 0) + w.getD (w.length - 16) 0)

/-- Extend the message schedule by `n` further words. -/
def extendW : Nat → List Nat → List Nat
  | 0, w => w
  | n + 1, w => extendW n (w ++ [nextW w])

/-- One SHA-256 compression round, consuming one (constant, schedule-word)
pair. -/
def roundStep (s : H8) (kw : Nat × Nat) : H8 :=
  let t1 := w32 (s.h + bSig1 s.e + chFun s.e s.f s.g + kw.1 + kw.2)
  let t2 := w32 (bSig0 s.a + majFun s.a s.b s.c)
  ⟨w32 (t1 + t2), s.a, s.b, s.c, w32 (s.d + t1), s.e, s.f, s.g⟩

/-- Process one 64-byte chunk: run the 64 rounds, then add into the state. -/
def processChunk (hv : H8) (chunk : List Nat) : H8 :=
  let w := extendW 48 (initialW chunk)
  let s := (K256.zip w).foldl roundStep hv
  ⟨w32 (hv.a + s.a), w32 (hv.b + s.b), w32 (hv.c + s.c), w32 (hv.d + s.d),
   w32 (hv.e + s.e), w32 (hv.f + s.f), w32 (hv.g + s.g), w32 (hv.h + s.h)⟩

/-- Big-endian 8-byte encoding of the message bit length. -/
def be64Bytes (x : Nat) : List Nat :=
  [x / 2 ^ 56 % 256, x / 2 ^ 48 % 256, x / 2 ^ 40 % 256, x / 2 ^ 32 % 256,
   x / 2 ^ 24 % 256, x / 2 ^ 16 % 256, x / 2 ^ 8 % 256, x % 256]

/-- SHA-256 padding: append `0x80`, zero bytes to 56 mod 64, then the
bit length as a big-endian 64-bit integer. -/
def padMessage (msg : List Nat) : List Nat :=
  msg ++ 128 :: (List.replicate ((119 - msg.length % 64) % 64) 0 ++
    be64Bytes (8 * msg.length))

/-- Split into 64-byte chunks (fuel-driven structural recursion). -/
def toChunksFuel : Nat → List Nat → List (List Nat)
  | 0, _ => []
  | _ + 1, [] => []
  | n + 1, l => l.take 64 :: toChunksFuel n (l.drop 64)

/-- Split a byte list into 64-byte chunks. -/
def toChunks (l : List Nat) : List (List Nat) := toChunksFuel l.length l

/-- Big-endian 4-byte encoding of a 32-bit word. -/
def wordBytes (x : Nat) : List Nat :=
  [x / 2 ^ 24 % 256, x / 2 ^ 16 % 256, x / 2 ^ 8 % 256, x % 256]

/-- The 32 digest bytes of a final SHA-256 state. -/
def digestBytes (s : H8) : List Nat :=
  wordBytes s.a ++ wordBytes s.b ++ wordBytes s.c ++ wordBytes s.d ++
  wordBytes s.e ++ wordBytes s.f ++ wordBytes s.g ++ wordBytes s.h

/-- `hashlib.sha256(msg).digest()`: the 32 raw digest bytes. -/
def sha256Bytes (msg : List Nat) : List Nat :=
  digestBytes ((toChunks (padMessage msg)).foldl processChunk initH)

/-- The sixteen lowercase hex digit characters, in value order. -/
def hexDigitChars : List Char := "0123456789abcdef".toList

/-- The lowercase hex digit of a nibble. -/
def hexChar (n : Nat) : Char := hexDigitChars.getD (n % 16) ('0')

/-- Lowercase hex encoding of a byte list, two digits per byte. -/
def bytesToHexChars : List Nat → List Char
  | [] => []
  | b :: rest => hexChar (b / 16) :: hexChar b :: bytesToHexChars rest

/-- `compute_sha256` from both source files: feed the whole block to
`hashlib.sha256` and return `hexdigest()` (lowercase hex). -/
def compute_sha256 (block : List Nat) : String :=
  String.mk (bytesToHexChars (sha256Bytes block))

/-! ### Block reading and classification (shared by both source files) -/

/-- The loop body of `read_blocks`: at file position `pos`, read up to
`block_size` bytes; an empty read breaks the loop, otherwise the block is
appended (even when shorter than `block_size`) and the file position
advances by the number of bytes actually read. -/
def read_blocks_loop (img : List Nat) (bs : Nat) : Nat → Nat → List (List Nat)
  | _, 0 => []
  | pos, n + 1 =>
    let block := pyRead img pos bs
    if block = [] then []
    else block :: read_blocks_loop img bs (pos + block.length) n

/-- `read_blocks(image, start_sector, num_sectors, block_size)`: seek to
`start_sector * block_size`, then read up to `num_sectors` blocks.
`num_sectors` is a Python `int`; `range` of a non-positive count is empty. -/
def read_blocks (img : List Nat) (start_sector : Nat) (num_sectors : Int)
    (block_size : Nat) : List (List Nat) :=
  read_blocks_loop img block_size (start_sector * block_size) num_sectors.toNat

/-- One iteration of the `extract_data_blocks` loop: a block whose
zero-stripped form is non-empty is a data block (appended, hashed);
otherwise the empty counter is incremented. -/
def extract_step (st : List (List Nat) × Nat × List String) (block : List Nat) :
    List (List Nat) × Nat × List String :=
  if pyStrip block ≠ [] then
    (st.1 ++ [block], st.2.1, st.2.2 ++ [compute_sha256 block])
  else
    (st.1, st.2.1 + 1, st.2.2)

/-- `extract_data_blocks(blocks)`: returns
`(data_blocks, empty_blocks, hashes)`. -/
def extract_data_blocks (blocks : List (List Nat)) :
    List (List Nat) × Nat × List String :=
  blocks.foldl extract_step ([], 0, [])

/-! ### MBR partition-table decoding (`Simple_BuddyFS.py`) -/

/-- An MBR partition record as built by `Simple_BuddyFS.read_partition_table`. -/
structure MBRPartition where
  status : Nat
  start_sector : Nat
  total_sectors : Nat
  deriving DecidableEq, Repr

namespace SimpleBuddyFS

/-- One iteration of the MBR entry loop: slice the 16-byte entry `i` out of
the boot sector, take `entry[0]` (IndexError on an empty slice), unpack the
two little-endian u32 fields (struct.error on slices of the wrong length),
and append the record when `total_sectors > 0`. -/
def mbr_step (mbr : List Nat) (acc : List MBRPartition) (i : Nat) :
    Except PyError (List MBRPartition) :=
  let entry := pySlice mbr (446 + i * 16) (446 + i * 16 + 16)
  match entry.head? with
  | none => Except.error PyError.indexError
  | some status =>
    match leU32 (pySlice entry 8 12), leU32 (pySlice entry 12 16) with
    | some start_sector, some total_sectors =>
      Except.ok (if total_sectors > 0 then
        acc ++ [⟨status, start_sector, total_sectors⟩] else acc)
    | _, _ => Except.error PyError.structError

/-- The `for i in range(4)` loop of the MBR decoder: run `mbr_step` for each
index in turn, threading the accumulator; a raised exception aborts the
whole loop. -/
def mbr_loop (mbr : List Nat) : List Nat → List MBRPartition →
    Except PyError (List MBRPartition)
  | [], acc => Except.ok acc
  | i :: is, acc =>
    match mbr_step mbr acc i with
    | Except.ok acc2 => mbr_loop mbr is acc2
    | Except.error e => Except.error e

/-- `read_partition_table(image_path)` of `Simple_BuddyFS.py`: read the
first 512 bytes and decode the four primary entries at offset 446. -/
def read_partition_table (img : List Nat) : Except PyError (List MBRPartition) :=
  mbr_loop (img.take 512) (List.range 4) []

end SimpleBuddyFS

/-! ### GPT partition-table decoding (`Simple_ForGPT.py`) -/

/-- A GPT partition record as built by `Simple_ForGPT.read_partition_table`.
`total_sectors` is an exact Python `int`, so it may be zero or negative. -/
structure GPTPartition where
  start_sector : Nat
  total_sectors : Int
  deriving DecidableEq, Repr

/-- The ASCII bytes of the literal GPT signature `EFI PART`. -/
def efiPart : List Nat := [69, 70, 73, 32, 80, 65, 82, 84]

namespace SimpleForGPT

/-- The GPT entry loop: sequentially read `partition_entry_size`-byte
entries (the file position advances by the bytes actually returned), unpack
`start_lba` at entry offset 32 and `end_lba` at 40 (struct.error on slices
of the wrong length), and keep entries with both fields non-zero, with
`total_sectors = end_lba - start_lba + 1` in exact integer arithmetic. -/
def readEntries (img : List Nat) (pes : Nat) : Nat → Nat → Except PyError (List GPTPartition)
  | _, 0 => Except.ok []
  | pos, n + 1 =>
    let entry := pyRead img pos pes
    match leU64 (pySlice entry 32 40), leU64 (pySlice entry 40 48) with
    | some start_lba, some end_lba =>
      match readEntries img pes (pos + entry.length) n with
      | Except.ok rest =>
        Except.ok (if start_lba ≠ 0 ∧ end_lba ≠ 0 then
          ⟨start_lba, (end_lba : Int) - (start_lba : Int) + 1⟩ :: rest else rest)
      | Except.error e => Except.error e
    | _, _ => Except.error PyError.structError

/-- `read_partition_table(image_path)` of `Simple_ForGPT.py`: read the
92-byte GPT header at byte offset 512, check the `EFI PART` signature
(ValueError on mismatch, before any entry data is read), unpack
`partition_entry_lba`, `num_partition_entries` and `partition_entry_size`,
seek to `partition_entry_lba * 512` and decode the entries. -/
def read_partition_table (img : List Nat) : Except PyError (List GPTPartition) :=
  let gpt_header := pyRead img 512 92
  if pySlice gpt_header 0 8 = efiPart then
    match leU64 (pySlice gpt_header 72 80), leU32 (pySlice gpt_header 80 84),
          leU32 (pySlice gpt_header 84 88) with
    | some pel, some npe, some pes => readEntries img pes (pel * 512) npe
    | _, _, _ => Except.error PyError.structError
  else Except.error PyError.invalidGptSignature

end SimpleForGPT

/-! ### Decode rules and concrete scenario images used by the statements -/

/-- The per-slot MBR decode rule: from boot sector `mbr`, slot `i` yields a
record exactly when its little-endian u32 sector count at entry bytes
`[12:16)` is non-zero, with the status byte at entry offset 0 and the
little-endian u32 start sector at `[8:12)`. -/
def mbrEntryDecode (mbr : List Nat) (i : Nat) : Option MBRPartition :=
  let entry := pySlice mbr (446 + i * 16) (446 + i * 16 + 16)
  let total := leVal (pySlice entry 12 16)
  if total > 0 then
    some ⟨entry.headD 0, leVal (pySlice entry 8 12), total⟩
  else none

/-- The per-entry GPT decode rule: the entry of `pes` bytes at absolute byte
offset `pos` yields a record exactly when both the little-endian u64
`start_lba` at entry offset 32 and `end_lba` at offset 40 are non-zero,
with `total_sectors = end_lba - start_lba + 1` in exact integer
arithmetic. -/
def gptEntryDecode (img : List Nat) (pos pes : Nat) : Option GPTPartition :=
  let entry := pyRead img pos pes
  let start_lba := leVal (pySlice entry 32 40)
  let end_lba := leVal (pySlice entry 40 48)
  if start_lba ≠ 0 ∧ end_lba ≠ 0 then
    some ⟨start_lba, (end_lba : Int) - (start_lba : Int) + 1⟩
  else none

/-- The 16-byte Scenario A slot-0 entry: status `0x80`, start sector 2048
(bytes `00 08 00 00`), sector count 100 (bytes `64 00 00 00`). -/
def scenarioA_entry : List Nat :=
  [128, 0, 0, 0, 0, 0, 0, 0] ++ [0, 8, 0, 0] ++ [100, 0, 0, 0]

/-- Scenario A boot sector: the slot-0 entry at offset 446, everything
else zero. -/
def scenarioA_img : List Nat :=
  List.replicate 446 0 ++ scenarioA_entry ++ List.replicate 50 0

/-- The 92-byte Scenario B GPT header: signature `EFI PART`,
`partition_entry_lba = 2` at offset 72, `num_partition_entries = 1` at 80,
`partition_entry_size = 128` at 84. -/
def scenarioB_hdr : List Nat :=
  efiPart ++ List.replicate 64 0 ++ [2, 0, 0, 0, 0, 0, 0, 0] ++
    [1, 0, 0, 0] ++ [128, 0, 0, 0] ++ [0, 0, 0, 0]

/-- The 128-byte Scenario B partition entry: `start_lba = 34` at entry
offset 32, `end_lba = 133` at offset 40. -/
def scenarioB_entry : List Nat :=
  List.replicate 32 0 ++ [34, 0, 0, 0, 0, 0, 0, 0] ++
    [133, 0, 0, 0, 0, 0, 0, 0] ++ List.replicate 80 0

/-- Scenario B image: the GPT header at byte offset 512 and the single
partition entry at byte offset 1024 (`partition_entry_lba * 512`). -/
def scenarioB_img : List Nat :=
  List.replicate 512 0 ++ scenarioB_hdr ++ List.replicate 420 0 ++
    scenarioB_entry

/-- The 48-byte GPT entry used as a witness for the inverted-extent case:
`start_lba = 34`, `end_lba = 2`. -/
def invertedEntry_img : List Nat :=
  List.replicate 32 0 ++ [34, 0, 0, 0, 0, 0, 0, 0] ++ [2, 0, 0, 0, 0, 0, 0, 0]

/-! ## Helper lemmas -/

theorem pyRead_length (img : List Nat) (pos n : Nat) :
    (pyRead img pos n).length = min n (img.length - pos) := by
  simp [pyRead]

theorem pySlice_length (l : List Nat) (a b : Nat) :
    (pySlice l a b).length = min b l.length - a := by
  simp [pySlice]

theorem pyRead_eq_nil_iff (img : List Nat) (pos bs : Nat) (hbs : 0 < bs) :
    pyRead img pos bs = [] ↔ img.length ≤ pos := by
  rw [← List.length_eq_zero, pyRead_length]
  omega

theorem leU32_of_length (l : List Nat) (h : l.length = 4) :
    leU32 l = some (leVal l) := by
  rcases l with _ | ⟨b0, _ | ⟨b1, _ | ⟨b2, _ | ⟨b3, _ | ⟨b4, t⟩⟩⟩⟩⟩ <;>
    simp_all [leU32, leVal]

theorem leU32_eq_none (l : List Nat) (h : l.length ≠ 4) :
    leU32 l = none := by
  rcases l with _ | ⟨b0, _ | ⟨b1, _ | ⟨b2, _ | ⟨b3, _ | ⟨b4, t⟩⟩⟩⟩⟩ <;>
    simp_all [leU32]

theorem leU64_of_length (l : List Nat) (h : l.length = 8) :
    leU64 l = some (leVal l) := by
  rcases l with _ | ⟨b0, _ | ⟨b1, _ | ⟨b2, _ | ⟨b3, _ | ⟨b4, _ | ⟨b5, _ |
    ⟨b6, _ | ⟨b7, _ | ⟨b8, t⟩⟩⟩⟩⟩⟩⟩⟩⟩ <;> simp_all [leU64, leVal]

theorem leU64_eq_none (l : List Nat) (h : l.length ≠ 8) :
    leU64 l = none := by
  rcases l with _ | ⟨b0, _ | ⟨b1, _ | ⟨b2, _ | ⟨b3, _ | ⟨b4, _ | ⟨b5, _ |
    ⟨b6, _ | ⟨b7, _ | ⟨b8, t⟩⟩⟩⟩⟩⟩⟩⟩⟩ <;> simp_all [leU64]

theorem pyStrip_eq_nil_iff (l : List Nat) :
    pyStrip l = [] ↔ ∀ x ∈ l, x = 0 := by
  unfold pyStrip
  rw [List.reverse_eq_nil_iff, List.dropWhile_eq_nil_iff]
  constructor
  · intro hrev x hx
    have hsplit := List.takeWhile_append_dropWhile (p := fun b => decide (b = 0)) (l := l)
    rw [← hsplit] at hx
    rcases List.mem_append.mp hx with hx | hx
    · simpa using List.mem_takeWhile_imp hx
    · simpa using hrev x (List.mem_reverse.mpr hx)
  · intro hall x hx
    have hx2 : x ∈ l.dropWhile (fun b => decide (b = 0)) := List.mem_reverse.mp hx
    have : x ∈ l := (List.dropWhile_sublist _).subset hx2
    simpa using hall x this

theorem rb_loop_zero (img : List Nat) (bs pos : Nat) :
    read_blocks_loop img bs pos 0 = [] := rfl

theorem rb_loop_succ (img : List Nat) (bs pos n : Nat) :
    read_blocks_loop img bs pos (n + 1) =
      if pyRead img pos bs = [] then []
      else pyRead img pos bs ::
        read_blocks_loop img bs (pos + (pyRead img pos bs).length) n := rfl

theorem rb_loop_nil_of_past (img : List Nat) (bs pos : Nat)
    (h : img.length ≤ pos) : ∀ n, read_blocks_loop img bs pos n = [] := by
  intro n
  cases n with
  | zero => rfl
  | succ n =>
    rw [rb_loop_succ]
    have hd : img.drop pos = [] := List.drop_eq_nil_of_le h
    have : pyRead img pos bs = [] := by simp [pyRead, hd]
    rw [if_pos this]

theorem rb_loop_length_le (img : List Nat) (bs : Nat) :
    ∀ (n pos : Nat), (read_blocks_loop img bs pos n).length ≤ n := by
  intro n
  induction n with
  | zero => intro pos; simp [rb_loop_zero]
  | succ n ih =>
    intro pos
    rw [rb_loop_succ]
    split
    · simp
    · simpa using ih _

theorem rb_loop_length_eq (img : List Nat) (bs : Nat) (hbs : 0 < bs) :
    ∀ (n pos : Nat), (read_blocks_loop img bs pos n).length =
      min n ((img.length - pos + bs - 1) / bs) := by
  intro n
  induction n with
  | zero => intro pos; simp [rb_loop_zero]
  | succ n ih =>
    intro pos
    rw [rb_loop_succ]
    by_cases hnil : pyRead img pos bs = []
    · rw [if_pos hnil]
      have hle : img.length ≤ pos := (pyRead_eq_nil_iff img pos bs hbs).mp hnil
      have h0 : img.length - pos = 0 := by omega
      rw [h0]
      rw [Nat.div_eq_of_lt (by omega)]
      simp
    · rw [if_neg hnil]
      have hlen : (pyRead img pos bs).length = min bs (img.length - pos) :=
        pyRead_length img pos bs
      have hpos : pos < img.length := by
        by_contra hc
        exact hnil ((pyRead_eq_nil_iff img pos bs hbs).mpr (by omega))
      by_cases hfull : bs ≤ img.length - pos
      · have hblen : (pyRead img pos bs).length = bs := by omega
        simp only [List.length_cons, hblen, ih]
        have harith : img.length - (pos + bs) + bs - 1 + bs =
            img.length - pos + bs - 1 := by omega
        have hdiv : (img.length - pos + bs - 1) / bs =
            (img.length - (pos + bs) + bs - 1) / bs + 1 := by
          rw [← harith, Nat.add_div_right _ hbs]
        rw [hdiv]
        omega
      · have hblen : (pyRead img pos bs).length = img.length - pos := by omega
        simp only [List.length_cons, hblen, ih]
        have hpos2 : pos + (img.length - pos) = img.length := by omega
        rw [hpos2]
        have h0 : img.length - img.length = 0 := by omega
        rw [h0]
        rw [Nat.div_eq_of_lt (by omega)]
        have h1 : (img.length - pos + bs - 1) / bs = 1 := by
          have hx : 0 < img.length - pos := by omega
          have harith : img.length - pos + bs - 1 = img.length - pos - 1 + bs := by
            omega
          rw [harith, Nat.add_div_right _ hbs, Nat.div_eq_of_lt (by omega)]
        rw [h1]
        omega

theorem rb_loop_join (img : List Nat) (bs : Nat) :
    ∀ (n pos : Nat), (read_blocks_loop img bs pos n).join =
      (img.drop pos).take (n * bs) := by
  intro n
  induction n with
  | zero => intro pos; simp [rb_loop_zero]
  | succ n ih =>
    intro pos
    rw [rb_loop_succ]
    by_cases hnil : pyRead img pos bs = []
    · rw [if_pos hnil]
      have : (img.drop pos).take bs = [] := hnil
      rcases List.take_eq_nil_iff.mp this with hbs0 | hdrop
      · simp [hbs0]
      · simp [hdrop]
    · rw [if_neg hnil]
      simp only [List.join_cons, ih]
      have hlen : (pyRead img pos bs).length = min bs (img.length - pos) :=
        pyRead_length img pos bs
      by_cases hfull : bs ≤ img.length - pos
      · have hblen : (pyRead img pos bs).length = bs := by omega
        rw [hblen]
        rw [show (n + 1) * bs = bs + n * bs by ring]
        rw [List.take_add]
        congr 1
        rw [List.drop_drop]
      · have hpos : 0 < (pyRead img pos bs).length := List.length_pos.mpr hnil
        have hblen : (pyRead img pos bs).length = img.length - pos := by omega
        rw [hblen]
        have hpos2 : pos + (img.length - pos) = img.length := by omega
        rw [hpos2]
        rw [List.drop_length]
        simp only [List.take_nil, List.append_nil]
        have h1 : (img.drop pos).length = img.length - pos := by simp
        have hble : bs ≤ (n + 1) * bs := Nat.le_mul_of_pos_left bs (Nat.succ_pos n)
        show (img.drop pos).take bs = (img.drop pos).take ((n + 1) * bs)
        rw [List.take_of_length_le (by omega), List.take_of_length_le (by omega)]

theorem rb_loop_ne_nil (img : List Nat) (bs : Nat) :
    ∀ (n pos : Nat), ∀ b ∈ read_blocks_loop img bs pos n, b ≠ [] := by
  intro n
  induction n with
  | zero => intro pos b hb; simp [rb_loop_zero] at hb
  | succ n ih =>
    intro pos b hb
    rw [rb_loop_succ] at hb
    by_cases hnil : pyRead img pos bs = []
    · rw [if_pos hnil] at hb; simp at hb
    · rw [if_neg hnil] at hb
      rcases List.mem_cons.mp hb with hb | hb
      · rw [hb]; exact hnil
      · exact ih _ b hb

theorem rb_loop_dropLast (img : List Nat) (bs : Nat) :
    ∀ (n pos : Nat), ∀ b ∈ (read_blocks_loop img bs pos n).dropLast,
      b.length = bs := by
  intro n
  induction n with
  | zero => intro pos b hb; simp [rb_loop_zero] at hb
  | succ n ih =>
    intro pos b hb
    rw [rb_loop_succ] at hb
    by_cases hnil : pyRead img pos bs = []
    · rw [if_pos hnil] at hb; simp at hb
    · rw [if_neg hnil] at hb
      rcases hrest : read_blocks_loop img bs (pos + (pyRead img pos bs).length) n
        with _ | ⟨r, rs⟩
      · rw [hrest] at hb; simp at hb
      · rw [hrest] at hb
        rw [List.dropLast_cons₂] at hb
        rcases List.mem_cons.mp hb with hb | hb
        · rw [hb]
          have hlen : (pyRead img pos bs).length = min bs (img.length - pos) :=
            pyRead_length img pos bs
          by_contra hne
          have hpast : img.length ≤ pos + (pyRead img pos bs).length := by omega
          have hnil2 := rb_loop_nil_of_past img bs _ hpast n
          rw [hrest] at hnil2
          exact List.cons_ne_nil r rs hnil2
        · rw [← hrest] at hb
          exact ih _ b hb

theorem extract_foldl_counts :
    ∀ (blocks : List (List Nat)) (st : List (List Nat) × Nat × List String),
      (blocks.foldl extract_step st).1.length +
        (blocks.foldl extract_step st).2.1 =
      st.1.length + st.2.1 + blocks.length := by
  intro blocks
  induction blocks with
  | nil => intro st; simp
  | cons b bs ih =>
    intro st
    rw [List.foldl_cons, ih]
    unfold extract_step
    split
    · simp
      omega
    · simp
      omega

theorem sha256Bytes_length (msg : List Nat) : (sha256Bytes msg).length = 32 := by
  simp [sha256Bytes, digestBytes, wordBytes]

theorem hexChar_mem (n : Nat) : hexChar n ∈ hexDigitChars := by
  have h : n % 16 < hexDigitChars.length := by
    have h16 : n % 16 < 16 := Nat.mod_lt _ (by norm_num)
    have : hexDigitChars.length = 16 := by decide
    omega
  rw [hexChar, List.getD_eq_getElem _ _ h]
  exact List.getElem_mem h

theorem bytesToHexChars_length :
    ∀ l : List Nat, (bytesToHexChars l).length = 2 * l.length := by
  intro l
  induction l with
  | nil => simp [bytesToHexChars]
  | cons b bs ih =>
    simp only [bytesToHexChars, List.length_cons, ih]
    omega

theorem bytesToHexChars_mem :
    ∀ (l : List Nat) (c : Char), c ∈ bytesToHexChars l → c ∈ hexDigitChars := by
  intro l
  induction l with
  | nil => intro c hc; simp [bytesToHexChars] at hc
  | cons b bs ih =>
    intro c hc
    rcases List.mem_cons.mp hc with hc | hc
    · rw [hc]; exact hexChar_mem _
    · rcases List.mem_cons.mp hc with hc | hc
      · rw [hc]; exact hexChar_mem _
      · exact ih c hc

theorem compute_sha256_length (block : List Nat) :
    (compute_sha256 block).length = 64 := by
  show (String.mk (bytesToHexChars (sha256Bytes block))).length = 64
  rw [String.length]
  rw [bytesToHexChars_length, sha256Bytes_length]

theorem compute_sha256_mem (block : List Nat) :
    ∀ c ∈ (compute_sha256 block).data, c ∈ hexDigitChars := by
  intro c hc
  exact bytesToHexChars_mem _ c hc

theorem mbr_step_complete (mbr : List Nat) (acc : List MBRPartition) (i : Nat)
    (h : 446 + i * 16 + 16 ≤ mbr.length) :
    SimpleBuddyFS.mbr_step mbr acc i =
      Except.ok (acc ++ (mbrEntryDecode mbr i).toList) := by
  unfold SimpleBuddyFS.mbr_step mbrEntryDecode
  have hel : (pySlice mbr (446 + i * 16) (446 + i * 16 + 16)).length = 16 := by
    rw [pySlice_length]; omega
  set entry := pySlice mbr (446 + i * 16) (446 + i * 16 + 16) with hentry
  have hne : entry ≠ [] := by
    intro hc; rw [hc] at hel; simp at hel
  have hhead : entry.head? = some (entry.headD 0) := by
    rcases entry with _ | ⟨x, xs⟩
    · exact absurd rfl hne
    · rfl
  have h8 : (pySlice entry 8 12).length = 4 := by
    rw [pySlice_length, hel]; decide
  have h12 : (pySlice entry 12 16).length = 4 := by
    rw [pySlice_length, hel]; decide
  simp only [hhead, leU32_of_length _ h8, leU32_of_length _ h12]
  split
  · simp
  · simp

theorem mbr_step_error (mbr : List Nat) (acc : List MBRPartition) (i : Nat)
    (h : mbr.length < 446 + i * 16 + 16) :
    ∃ e, SimpleBuddyFS.mbr_step mbr acc i = Except.error e := by
  unfold SimpleBuddyFS.mbr_step
  by_cases h0 : mbr.length ≤ 446 + i * 16
  · have hnil : pySlice mbr (446 + i * 16) (446 + i * 16 + 16) = [] := by
      rw [← List.length_eq_zero, pySlice_length]; omega
    simp only [hnil]
    exact ⟨_, rfl⟩
  · set entry := pySlice mbr (446 + i * 16) (446 + i * 16 + 16) with hentry
    have hel : entry.length = mbr.length - (446 + i * 16) := by
      rw [hentry, pySlice_length]; omega
    have hne : entry ≠ [] := by
      intro hc; rw [hc] at hel; simp at hel; omega
    have hhead : entry.head? = some (entry.headD 0) := by
      rcases entry with _ | ⟨x, xs⟩
      · exact absurd rfl hne
      · rfl
    by_cases h1 : entry.length < 12
    · have hn : (pySlice entry 8 12).length ≠ 4 := by
        rw [pySlice_length]; omega
      simp only [hhead, leU32_eq_none _ hn]
      exact ⟨_, rfl⟩
    · have h4 : (pySlice entry 8 12).length = 4 := by
        rw [pySlice_length]; omega
      have hn : (pySlice entry 12 16).length ≠ 4 := by
        rw [pySlice_length]; omega
      simp only [hhead, leU32_of_length _ h4, leU32_eq_none _ hn]
      exact ⟨_, rfl⟩

theorem mbr_loop_complete (mbr : List Nat) :
    ∀ (is : List Nat) (acc : List MBRPartition),
      (∀ i ∈ is, 446 + i * 16 + 16 ≤ mbr.length) →
      SimpleBuddyFS.mbr_loop mbr is acc =
        Except.ok (acc ++ is.filterMap (mbrEntryDecode mbr)) := by
  intro is
  induction is with
  | nil => intro acc h; simp [SimpleBuddyFS.mbr_loop]
  | cons i is ih =>
    intro acc h
    have hstep := mbr_step_complete mbr acc i (h i (List.mem_cons_self i is))
    simp only [SimpleBuddyFS.mbr_loop, hstep]
    rw [ih _ (fun j hj => h j (List.mem_cons_of_mem _ hj))]
    rw [List.filterMap_cons]
    cases hdec : mbrEntryDecode mbr i <;> simp

theorem mbr_loop_error (mbr : List Nat) :
    ∀ (is : List Nat) (acc : List MBRPartition),
      (∃ i ∈ is, mbr.length < 446 + i * 16 + 16) →
      ∃ e, SimpleBuddyFS.mbr_loop mbr is acc = Except.error e := by
  intro is
  induction is with
  | nil =>
    intro acc h
    rcases h with ⟨j, hj, _⟩
    simp at hj
  | cons i is ih =>
    intro acc h
    rcases h with ⟨j, hj, hjlen⟩
    by_cases hi : mbr.length < 446 + i * 16 + 16
    · obtain ⟨e, he⟩ := mbr_step_error mbr acc i hi
      refine ⟨e, ?_⟩
      simp only [SimpleBuddyFS.mbr_loop, he]
    · have hic : 446 + i * 16 + 16 ≤ mbr.length := by omega
      have hstep := mbr_step_complete mbr acc i hic
      have hj2 : j ∈ is := by
        rcases List.mem_cons.mp hj with hji | hji
        · rw [hji] at hjlen; omega
        · exact hji
      obtain ⟨e, he⟩ := ih (acc ++ (mbrEntryDecode mbr i).toList) ⟨j, hj2, hjlen⟩
      refine ⟨e, ?_⟩
      simp only [SimpleBuddyFS.mbr_loop, hstep, he]

theorem mbr_step_take510 (img : List Nat) (acc : List MBRPartition) (i : Nat)
    (hi : i < 4) :
    SimpleBuddyFS.mbr_step (img.take 512) acc i =
      SimpleBuddyFS.mbr_step ((img.take 510).take 512) acc i := by
  have hsl : pySlice (img.take 512) (446 + i * 16) (446 + i * 16 + 16) =
      pySlice ((img.take 510).take 512) (446 + i * 16) (446 + i * 16 + 16) := by
    unfold pySlice
    rw [List.take_take, List.take_take, List.take_take]
    congr 2
    omega
  unfold SimpleBuddyFS.mbr_step
  rw [hsl]

theorem gptEntryDecode_shift (img : List Nat) (pes pos n : Nat) :
    (List.range (n + 1)).filterMap
        (fun i => gptEntryDecode img (pos + i * pes) pes) =
      (gptEntryDecode img pos pes).toList ++
        (List.range n).filterMap
          (fun i => gptEntryDecode img (pos + pes + i * pes) pes) := by
  rw [List.range_succ_eq_map, List.filterMap_cons, List.filterMap_map]
  have hfun : ((fun i => gptEntryDecode img (pos + i * pes) pes) ∘ Nat.succ) =
      fun i => gptEntryDecode img (pos + pes + i * pes) pes := by
    funext i
    show gptEntryDecode img (pos + (i + 1) * pes) pes =
      gptEntryDecode img (pos + pes + i * pes) pes
    congr 1
    ring
  rw [hfun]
  simp only [Nat.zero_mul, Nat.add_zero]
  cases hdec : gptEntryDecode img pos pes <;> simp

theorem readEntries_complete (img : List Nat) (pes : Nat) (h48 : 48 ≤ pes) :
    ∀ (n pos : Nat), pos + n * pes ≤ img.length →
      SimpleForGPT.readEntries img pes pos n =
        Except.ok ((List.range n).filterMap fun i =>
          gptEntryDecode img (pos + i * pes) pes) := by
  intro n
  induction n with
  | zero => intro pos h; simp [SimpleForGPT.readEntries]
  | succ n ih =>
    intro pos h
    have hpes : pos + pes ≤ img.length := by
      have hmul : pes ≤ (n + 1) * pes := Nat.le_mul_of_pos_left pes (Nat.succ_pos n)
      omega
    have hent : (pyRead img pos pes).length = pes := by
      rw [pyRead_length]; omega
    have h32 : (pySlice (pyRead img pos pes) 32 40).length = 8 := by
      rw [pySlice_length, hent]; omega
    have h40 : (pySlice (pyRead img pos pes) 40 48).length = 8 := by
      rw [pySlice_length, hent]; omega
    have hrec : pos + pes + n * pes ≤ img.length := by
      have hmul : (n + 1) * pes = n * pes + pes := by ring
      omega
    simp only [SimpleForGPT.readEntries, leU64_of_length _ h32,
      leU64_of_length _ h40, hent, ih (pos + pes) hrec]
    rw [gptEntryDecode_shift]
    split_ifs with hc
    · have hdec : gptEntryDecode img pos pes =
          some ⟨leVal (pySlice (pyRead img pos pes) 32 40),
            (leVal (pySlice (pyRead img pos pes) 40 48) : Int) -
              (leVal (pySlice (pyRead img pos pes) 32 40) : Int) + 1⟩ := by
        simp only [gptEntryDecode]
        rw [if_pos hc]
      rw [hdec]
      simp
    · have hdec : gptEntryDecode img pos pes = none := by
        simp only [gptEntryDecode]
        rw [if_neg hc]
      rw [hdec]
      simp

theorem mbr_loop_congr (mbr mbr2 : List Nat) :
    ∀ (is : List Nat) (acc : List MBRPartition),
      (∀ i ∈ is, ∀ a, SimpleBuddyFS.mbr_step mbr a i =
        SimpleBuddyFS.mbr_step mbr2 a i) →
      SimpleBuddyFS.mbr_loop mbr is acc = SimpleBuddyFS.mbr_loop mbr2 is acc := by
  intro is
  induction is with
  | nil => intro acc h; rfl
  | cons i is ih =>
    intro acc h
    simp only [SimpleBuddyFS.mbr_loop]
    rw [h i (List.mem_cons_self i is) acc]
    cases hres : SimpleBuddyFS.mbr_step mbr2 acc i with
    | ok acc2 => exact ih acc2 (fun j hj a => h j (List.mem_cons_of_mem _ hj) a)
    | error e => rfl

theorem gpt_sig_slice (img : List Nat) :
    pySlice (pyRead img 512 92) 0 8 = pyRead img 512 8 := by
  simp [pySlice, pyRead, List.take_take]

/-! ## Claims -/

/-- Claim C1: for every block handed to the classifier, the classification
is Empty (the block is only counted, producing `([], 1, [])` on a singleton
input) if and only if every byte of the block is the zero byte; otherwise
the classification is Data, the block is kept with digest
`compute_sha256 block` — the SHA-256 hex digest of the block's full raw
bytes — and that digest is a 64-character string of lowercase hex digits. -/
theorem C1_block_classification (block : List Nat) :
    (extract_data_blocks [block] = ([], 1, []) ↔ ∀ x ∈ block, x = 0) ∧
    ((¬ ∀ x ∈ block, x = 0) →
      extract_data_blocks [block] = ([block], 0, [compute_sha256 block]) ∧
      (compute_sha256 block).length = 64 ∧
      ∀ c ∈ (compute_sha256 block).data, c ∈ hexDigitChars) := by
  have hunfold : extract_data_blocks [block] = extract_step ([], 0, []) block := by
    simp [extract_data_blocks]
  by_cases hz : ∀ x ∈ block, x = 0
  · have hstrip : pyStrip block = [] := (pyStrip_eq_nil_iff block).mpr hz
    refine ⟨⟨fun _ => hz, fun _ => ?_⟩, fun hc => absurd hz hc⟩
    rw [hunfold]
    unfold extract_step
    rw [if_neg (by simp [hstrip])]
  · have hstrip : pyStrip block ≠ [] :=
      fun hc => hz ((pyStrip_eq_nil_iff block).mp hc)
    constructor
    · constructor
      · intro heq
        exfalso
        rw [hunfold] at heq
        unfold extract_step at heq
        rw [if_pos hstrip] at heq
        simp at heq
      · intro hzz; exact absurd hzz hz
    · intro _
      refine ⟨?_, compute_sha256_length block, compute_sha256_mem block⟩
      rw [hunfold]
      unfold extract_step
      rw [if_pos hstrip]
      simp

/-- Claim C1 witness: the classifier applied to the single-byte block `[1]`. -/
theorem C1_block_classification_witness :
    (¬ ∀ x ∈ ([1] : List Nat), x = 0) ∧
    (extract_data_blocks [([1] : List Nat)] =
        ([[1]], 0, [compute_sha256 [1]]) ∧
      (compute_sha256 ([1] : List Nat)).length = 64 ∧
      ∀ c ∈ (compute_sha256 ([1] : List Nat)).data, c ∈ hexDigitChars) :=
  ⟨by decide, (C1_block_classification [1]).2 (by decide)⟩

/-- Claim C8: digest computation is deterministic — the digest is a pure
function of the exact byte content, so equal byte content always yields
the identical hex digest. -/
theorem C8_digest_deterministic (b1 b2 : List Nat) (h : b1 = b2) :
    compute_sha256 b1 = compute_sha256 b2 := by
  rw [h]

/-- Claim C8 witness: hashing the byte content `[0, 255]` twice. -/
theorem C8_digest_deterministic_witness :
    ([0, 255] : List Nat) = [0, 255] ∧
    compute_sha256 [0, 255] = compute_sha256 [0, 255] :=
  ⟨rfl, C8_digest_deterministic [0, 255] [0, 255] rfl⟩

/-- Claim C9: every block returned by the block reader is non-empty, every
block except possibly the last has exactly `block_size` bytes, and the
sequence has at most `sector_count` elements. -/
theorem C9_reader_shape (img : List Nat) (start n bs : Nat) :
    (∀ b ∈ read_blocks img start (n : Int) bs, b ≠ []) ∧
    (∀ b ∈ (read_blocks img start (n : Int) bs).dropLast, b.length = bs) ∧
    (read_blocks img start (n : Int) bs).length ≤ n := by
  have htn : ((n : Int)).toNat = n := by simp
  rw [read_blocks, htn]
  exact ⟨rb_loop_ne_nil img bs n (start * bs),
    rb_loop_dropLast img bs n (start * bs),
    rb_loop_length_le img bs n (start * bs)⟩

/-- Claim C9 witness: the reader on a 3-byte image with block size 2, where
the final block is short. -/
theorem C9_reader_shape_witness :
    (∀ b ∈ read_blocks [1, 2, 3] 0 (2 : Int) 2, b ≠ []) ∧
    (∀ b ∈ (read_blocks [1, 2, 3] 0 (2 : Int) 2).dropLast, b.length = 2) ∧
    (read_blocks [1, 2, 3] 0 (2 : Int) 2).length ≤ 2 :=
  C9_reader_shape [1, 2, 3] 0 2 2

/-- Claim C2 counterexample: on an image of 6 bytes with block size 4 and
`sector_count = 10`, the reader returns the 2-byte short tail as a second
block instead of discarding it, so the claim that a short/partial tail
block is discarded (and hence that every returned block has `block_size`
bytes) is false. -/
theorem C2_reader_counterexample :
    read_blocks [7, 7, 7, 7, 7, 7] 0 (10 : Int) 4 =
      [[7, 7, 7, 7], [7, 7]] ∧
    ¬ ∀ b ∈ read_blocks [7, 7, 7, 7, 7, 7] 0 (10 : Int) 4,
        b.length = 4 := by
  constructor
  · decide
  · decide

/-- Claim C2 (amended): the reader stops only when a read returns zero
bytes; a short non-empty tail block is kept as the final block rather than
discarded, so the concatenation of the returned blocks is exactly the
image's bytes over the declared extent; no error is raised for reaching
the end of the image early; in particular a partition declaring
`sector_count = 10` over an image that ends exactly after 4 more full
blocks yields exactly 4 blocks. -/
theorem C2_reader_amended (img : List Nat) (start n bs : Nat) (hbs : 0 < bs) :
    (read_blocks img start (n : Int) bs).join =
      (img.drop (start * bs)).take (n * bs) ∧
    (img.length = start * bs + 4 * bs →
      (read_blocks img start (10 : Int) bs).length = 4) := by
  constructor
  · have htn : ((n : Int)).toNat = n := by simp
    rw [read_blocks, htn, rb_loop_join]
  · intro hlen
    rw [read_blocks]
    have h10 : ((10 : Int)).toNat = 10 := rfl
    rw [h10, rb_loop_length_eq img bs hbs 10 (start * bs), hlen]
    have h4 : start * bs + 4 * bs - start * bs = 4 * bs := by omega
    rw [h4]
    have hdiv : (4 * bs + bs - 1) / bs = 4 := by
      have h1 : 4 * bs + bs - 1 = (bs - 1) + 4 * bs := by omega
      rw [h1, Nat.add_mul_div_right _ _ hbs, Nat.div_eq_of_lt (by omega)]
    rw [hdiv]
    decide

/-- Claim C2 witness: an 8-byte image read from sector 0 with block size 2
and `sector_count = 10` yields exactly 4 blocks. -/
theorem C2_reader_amended_witness :
    (0 : Nat) < 2 ∧
    (List.replicate 8 3 : List Nat).length = 0 * 2 + 4 * 2 ∧
    (read_blocks (List.replicate 8 3) 0 (10 : Int) 2).length = 4 :=
  ⟨by decide, by decide,
    (C2_reader_amended (List.replicate 8 3) 0 10 2 (by decide)).2 (by decide)⟩

/-- Claim C7: the data-block count plus the empty-block count equals the
number of blocks actually read, that number is at most the requested
`sector_count`, and it is strictly less than `sector_count` only when the
image ends before the partition's declared extent. -/
theorem C7_count_invariant (img : List Nat) (start n bs : Nat) (hbs : 0 < bs) :
    (extract_data_blocks (read_blocks img start (n : Int) bs)).1.length +
        (extract_data_blocks (read_blocks img start (n : Int) bs)).2.1 =
      (read_blocks img start (n : Int) bs).length ∧
    (read_blocks img start (n : Int) bs).length ≤ n ∧
    ((read_blocks img start (n : Int) bs).length < n →
      img.length < start * bs + n * bs) := by
  have htn : ((n : Int)).toNat = n := by simp
  refine ⟨?_, ?_, ?_⟩
  · have hc := extract_foldl_counts (read_blocks img start (n : Int) bs) ([], 0, [])
    simpa [extract_data_blocks] using hc
  · rw [read_blocks, htn]
    exact rb_loop_length_le img bs n (start * bs)
  · intro hlt
    rw [read_blocks, htn, rb_loop_length_eq img bs hbs n (start * bs)] at hlt
    have hc : (img.length - start * bs + bs - 1) / bs < n := by omega
    have hmul := (Nat.div_lt_iff_lt_mul hbs).mp hc
    omega

/-- Claim C7 witness: a 3-byte image, block size 1, `sector_count = 3`. -/
theorem C7_count_invariant_witness :
    (0 : Nat) < 1 ∧
    ((extract_data_blocks (read_blocks [5, 5, 5] 0 (3 : Int) 1)).1.length +
        (extract_data_blocks (read_blocks [5, 5, 5] 0 (3 : Int) 1)).2.1 =
      (read_blocks [5, 5, 5] 0 (3 : Int) 1).length ∧
      (read_blocks [5, 5, 5] 0 (3 : Int) 1).length ≤ 3 ∧
      ((read_blocks [5, 5, 5] 0 (3 : Int) 1).length < 3 →
        ([5, 5, 5] : List Nat).length < 0 * 1 + 3 * 1)) :=
  ⟨by decide, C7_count_invariant [5, 5, 5] 0 3 1 (by decide)⟩

/-- Claim C4: for every image whose 512-byte boot sector is fully
available, the MBR decoder returns exactly the per-slot decode results in
slot order 0–3 — each slot contributes a descriptor with the status byte
at entry offset 0, the little-endian u32 start sector at entry bytes
`[8:12)` and the little-endian u32 sector count at `[12:16)` exactly when
that sector count is non-zero. -/
theorem C4_mbr_rule (img : List Nat) (h : 512 ≤ img.length) :
    SimpleBuddyFS.read_partition_table img =
      Except.ok ((List.range 4).filterMap (mbrEntryDecode (img.take 512))) := by
  have hcond : ∀ i ∈ List.range 4, 446 + i * 16 + 16 ≤ (img.take 512).length := by
    intro i hi
    have h4 : i < 4 := List.mem_range.mp hi
    rw [List.length_take]
    omega
  unfold SimpleBuddyFS.read_partition_table
  rw [mbr_loop_complete (img.take 512) (List.range 4) [] hcond]
  simp

/-- Claim C4 witness: the Scenario A boot sector yields exactly one
descriptor with start sector 2048 and sector count 100. -/
theorem C4_mbr_rule_witness :
    512 ≤ scenarioA_img.length ∧
    SimpleBuddyFS.read_partition_table scenarioA_img =
      Except.ok [⟨128, 2048, 100⟩] := by
  constructor
  · decide
  · rw [C4_mbr_rule scenarioA_img (by decide)]
    decide

/-- Claim C5: for every image whose 8 bytes at byte offset 512 are not the
ASCII signature `EFI PART`, the GPT decoder fails with the invalid-GPT-
signature error; the result is the same for every such image regardless of
any other byte, so no partition-entry data is read before failing. -/
theorem C5_gpt_bad_signature (img : List Nat)
    (h : pyRead img 512 8 ≠ efiPart) :
    SimpleForGPT.read_partition_table img =
      Except.error PyError.invalidGptSignature := by
  simp only [SimpleForGPT.read_partition_table, gpt_sig_slice]
  rw [if_neg h]

/-- Claim C5 witness: the empty image has no `EFI PART` signature at
offset 512 and the GPT decoder rejects it. -/
theorem C5_gpt_bad_signature_witness :
    pyRead ([] : List Nat) 512 8 ≠ efiPart ∧
    SimpleForGPT.read_partition_table ([] : List Nat) =
      Except.error PyError.invalidGptSignature :=
  ⟨by decide, C5_gpt_bad_signature [] (by decide)⟩

/-- Claim C6 counterexample: an image of 510 bytes is shorter than 512
bytes, yet the MBR decoder succeeds (returning no partitions) instead of
failing, so the claim that every image shorter than 512 bytes fails is
false. -/
theorem C6_mbr_counterexample :
    (List.replicate 510 0 : List Nat).length < 512 ∧
    SimpleBuddyFS.read_partition_table (List.replicate 510 0) =
      Except.ok [] := by
  constructor
  · decide
  · decide

/-- Claim C6 (amended): the MBR decoder performs no boot-signature
validation — its result depends only on the first 510 bytes, so the two
boot-signature bytes at offsets 510–511 are never inspected — and it fails
exactly when the image has fewer than 510 bytes, which is when the byte
range of the four 16-byte partition entries (ending at offset 510) cannot
be sliced in full; for every image of at least 510 bytes it does not
fail. -/
theorem C6_mbr_amended (img : List Nat) :
    SimpleBuddyFS.read_partition_table img =
      SimpleBuddyFS.read_partition_table (img.take 510) ∧
    ((∃ ps, SimpleBuddyFS.read_partition_table img = Except.ok ps) ↔
      510 ≤ img.length) := by
  constructor
  · unfold SimpleBuddyFS.read_partition_table
    refine mbr_loop_congr _ _ (List.range 4) [] ?_
    intro i hi a
    exact mbr_step_take510 img a i (List.mem_range.mp hi)
  · constructor
    · rintro ⟨ps, hps⟩
      by_contra hlt
      push_neg at hlt
      have hmbr : (img.take 512).length = img.length := by
        rw [List.length_take]; omega
      obtain ⟨e, he⟩ := mbr_loop_error (img.take 512) (List.range 4) []
        ⟨3, by decide, by rw [hmbr]; omega⟩
      unfold SimpleBuddyFS.read_partition_table at hps
      rw [he] at hps
      exact absurd hps (by simp)
    · intro h510
      have hcond : ∀ i ∈ List.range 4, 446 + i * 16 + 16 ≤ (img.take 512).length := by
        intro i hi
        have h4 : i < 4 := List.mem_range.mp hi
        rw [List.length_take]
        omega
      refine ⟨[] ++ (List.range 4).filterMap (mbrEntryDecode (img.take 512)), ?_⟩
      unfold SimpleBuddyFS.read_partition_table
      exact mbr_loop_complete (img.take 512) (List.range 4) [] hcond

/-- Claim C6 witness: the amended statement at the empty image (fewer than
510 bytes, so the decoder fails). -/
theorem C6_mbr_amended_witness :
    SimpleBuddyFS.read_partition_table ([] : List Nat) =
      SimpleBuddyFS.read_partition_table (([] : List Nat).take 510) ∧
    ((∃ ps, SimpleBuddyFS.read_partition_table ([] : List Nat) =
        Except.ok ps) ↔ 510 ≤ ([] : List Nat).length) :=
  C6_mbr_amended []

/-- Claim C3: whenever the GPT header at byte offset 512 carries the
`EFI PART` signature and decodes to `partition_entry_lba = pel`,
`num_partition_entries = npe` and `partition_entry_size = pes`, with every
entry fully inside the image, the decoder returns exactly the per-entry
decode results in entry order: entry `i` sits at byte offset
`pel * 512 + i * pes`, its `start_lba` is the little-endian u64 at entry
offset 32 and its `end_lba` the little-endian u64 at offset 40, and it
contributes `{start_sector := start_lba,
total_sectors := end_lba - start_lba + 1}` exactly when both fields are
non-zero; other entries are skipped without error. -/
theorem C3_gpt_entry_rule (img : List Nat) (pel npe pes : Nat)
    (hsig : pySlice (pyRead img 512 92) 0 8 = efiPart)
    (hpel : leU64 (pySlice (pyRead img 512 92) 72 80) = some pel)
    (hnpe : leU32 (pySlice (pyRead img 512 92) 80 84) = some npe)
    (hpes : leU32 (pySlice (pyRead img 512 92) 84 88) = some pes)
    (h48 : 48 ≤ pes) (hlen : pel * 512 + npe * pes ≤ img.length) :
    SimpleForGPT.read_partition_table img =
      Except.ok ((List.range npe).filterMap fun i =>
        gptEntryDecode img (pel * 512 + i * pes) pes) := by
  simp only [SimpleForGPT.read_partition_table]
  rw [if_pos hsig]
  simp only [hpel, hnpe, hpes]
  exact readEntries_complete img pes h48 npe (pel * 512) hlen

/-- Claim C3 witness: the Scenario B image (one entry with
`start_lba = 34`, `end_lba = 133`) yields the single descriptor with start
sector 34 and sector count 100. -/
theorem C3_gpt_entry_rule_witness :
    pySlice (pyRead scenarioB_img 512 92) 0 8 = efiPart ∧
    leU64 (pySlice (pyRead scenarioB_img 512 92) 72 80) = some 2 ∧
    leU32 (pySlice (pyRead scenarioB_img 512 92) 80 84) = some 1 ∧
    leU32 (pySlice (pyRead scenarioB_img 512 92) 84 88) = some 128 ∧
    48 ≤ 128 ∧ 2 * 512 + 1 * 128 ≤ scenarioB_img.length ∧
    SimpleForGPT.read_partition_table scenarioB_img =
      Except.ok [⟨34, (100 : Int)⟩] := by
  refine ⟨by decide, by decide, by decide, by decide, by decide, by decide, ?_⟩
  rw [C3_gpt_entry_rule scenarioB_img 2 1 128 (by decide) (by decide)
    (by decide) (by decide) (by decide) (by decide)]
  decide

/-- Claim C10: a GPT entry whose `start_lba` and `end_lba` are both
non-zero but with `end_lba < start_lba` is still emitted as a descriptor;
its `total_sectors = end_lba - start_lba + 1` is computed in exact integer
arithmetic (not reduced mod `2^64`), hence zero or negative, and the
subsequent block read for such a count returns the empty block
sequence. -/
theorem C10_inverted_extent (img : List Nat) (pos pes s e : Nat)
    (hpes : 48 ≤ pes) (hlen : pos + pes ≤ img.length)
    (hs : leVal (pySlice (pyRead img pos pes) 32 40) = s)
    (he : leVal (pySlice (pyRead img pos pes) 40 48) = e)
    (hs0 : s ≠ 0) (he0 : e ≠ 0) (hlt : e < s) :
    SimpleForGPT.readEntries img pes pos 1 =
      Except.ok [⟨s, (e : Int) - (s : Int) + 1⟩] ∧
    (e : Int) - (s : Int) + 1 ≤ 0 ∧
    ∀ (img2 : List Nat) (st2 bs2 : Nat),
      read_blocks img2 st2 ((e : Int) - (s : Int) + 1) bs2 = [] := by
  have hnonpos : (e : Int) - (s : Int) + 1 ≤ 0 := by
    have hcast : (e : Int) < (s : Int) := by exact_mod_cast hlt
    omega
  refine ⟨?_, hnonpos, ?_⟩
  · rw [readEntries_complete img pes hpes 1 pos (by omega)]
    have hdec : gptEntryDecode img (pos + 0 * pes) pes =
        some ⟨s, (e : Int) - (s : Int) + 1⟩ := by
      simp only [Nat.zero_mul, Nat.add_zero, gptEntryDecode]
      rw [hs, he, if_pos ⟨hs0, he0⟩]
    rw [show List.range 1 = [0] from rfl]
    simp only [List.filterMap_cons, List.filterMap_nil, hdec]
  · intro img2 st2 bs2
    rw [read_blocks, Int.toNat_of_nonpos hnonpos]
    rfl

/-- Claim C10 witness: a single 48-byte entry with `start_lba = 34` and
`end_lba = 2` is emitted with `total_sectors = -31` and the block reader
returns no blocks for it. -/
theorem C10_inverted_extent_witness :
    48 ≤ 48 ∧ (0 : Nat) + 48 ≤ invertedEntry_img.length ∧
    leVal (pySlice (pyRead invertedEntry_img 0 48) 32 40) = 34 ∧
    leVal (pySlice (pyRead invertedEntry_img 0 48) 40 48) = 2 ∧
    (SimpleForGPT.readEntries invertedEntry_img 48 0 1 =
        Except.ok [⟨34, ((2 : Nat) : Int) - ((34 : Nat) : Int) + 1⟩] ∧
      ((2 : Nat) : Int) - ((34 : Nat) : Int) + 1 ≤ 0 ∧
      ∀ (img2 : List Nat) (st2 bs2 : Nat),
        read_blocks img2 st2 (((2 : Nat) : Int) - ((34 : Nat) : Int) + 1) bs2 = []) :=
  ⟨by decide, by decide, by decide, by decide,
    C10_inverted_extent invertedEntry_img 0 48 34 2 (by decide) (by decide)
      (by decide) (by decide) (by decide) (by decide) (by decide)⟩
